import Mathlib

set_option maxHeartbeats 1000000

/-!
Verification development for the ad-detect chunk classification pipeline
(src/process_file.py).  The Python functions are shallowly embedded as
executable Lean definitions: audio payloads become lists of samples
(`List Nat`), the label values `'A'`, `'B'`, `None` become the inductive
type `Label`, and the in-place mutation of the `segments` list inside
`apply_forgiving_heuristic` becomes an explicit fuelled loop over
`List.set`.
-/

namespace AdDetect

/-- Chunk labels as used in process_file.py: the Python values are the
strings `'A'` and `'B'`, and `None` for a failed classification
(modelled by `Label.unknown`). -/
inductive Label where
  | A : Label
  | B : Label
  | unknown : Label
deriving DecidableEq

/-- Outcome of the external oracle call made by `run_inference`
(src/process_file.py lines 11-24): either the subprocess succeeded and
produced some stdout text (modelled as a list of characters), or it
raised `CalledProcessError`. -/
inductive OracleResult where
  | ok : List Char → OracleResult
  | err : OracleResult
deriving DecidableEq

/-- Embedding of `run_inference` (src/process_file.py lines 11-24):
on success, return `'A'` if the output contains the character `A`,
else `'B'` if it contains `B`, else `None`; on `CalledProcessError`
return `None`. -/
def run_inference : OracleResult → Label
  | OracleResult.err => Label.unknown
  | OracleResult.ok output =>
      if 'A' ∈ output then Label.A
      else if 'B' ∈ output then Label.B
      else Label.unknown

/-- Embedding of `process_chunk` (src/process_file.py lines 27-33):
returns the pair of the chunk index and the inference result for that
chunk's oracle call. -/
def process_chunk (chunk_index : Nat) (oracle : OracleResult) : Nat × Label :=
  (chunk_index, run_inference oracle)

/-- Embedding of the parallel classification step of `process_audio`
(src/process_file.py lines 113-122): each index `i` of the pre-sized
`predictions` array receives exactly the result of `process_chunk` on
chunk `i`, independent of completion order, so the dispatcher is the
pointwise map of `run_inference` over the per-chunk oracle outcomes. -/
def dispatchPredictions (n : Nat) (oracle : Nat → OracleResult) : List Label :=
  (List.range n).map (fun i => (process_chunk i (oracle i)).2)

/-- Embedding of `new_label = 'B' if label == 'A' else 'A'`
(src/process_file.py line 59).  Note that on `Label.unknown` (Python
`None`) this yields `Label.A`. -/
def otherLabel : Label → Label
  | Label.A => Label.B
  | _ => Label.A

/-- Tail of the grouping loop of `apply_forgiving_heuristic`
(src/process_file.py lines 38-48): walk the remaining predictions with
the current run label `cl`, the indices `ci` collected for that run,
the next index `i`, and the segments already emitted in `acc`. -/
def buildSegmentsGo : List Label → Label → List Nat → Nat →
    List (Label × List Nat) → List (Label × List Nat)
  | [], cl, ci, _, acc => acc ++ [(cl, ci)]
  | p :: rest, cl, ci, i, acc =>
      if p = cl then buildSegmentsGo rest cl (ci ++ [i]) (i + 1) acc
      else buildSegmentsGo rest p [i] (i + 1) (acc ++ [(cl, ci)])

/-- Step 1 of `apply_forgiving_heuristic` (src/process_file.py lines
37-48): group consecutive identical labels into segments.  The Python
code reads `predictions[0]` unconditionally, so the empty list is an
error precondition; the `[]` case here is never reached from
`apply_forgiving_heuristic`. -/
def buildSegments : List Label → List (Label × List Nat)
  | [] => []
  | p :: rest => buildSegmentsGo rest p [0] 1 []

/-- One iteration of the flip loop of `apply_forgiving_heuristic`
(src/process_file.py lines 50-61), at loop index `i`, acting on the
current (already partially updated) `segs` list exactly as the Python
code reads `segments[i - 1]`, `segments[i]`, `segments[i + 1]` and
assigns `segments[i]`. -/
def flipAt (minS maxF : Nat) (segs : List (Label × List Nat)) (i : Nat) :
    List (Label × List Nat) :=
  match segs[i - 1]?, segs[i]?, segs[i + 1]? with
  | some prevSeg, some cur, some nextSeg =>
      if cur.2.length ≤ maxF ∧ prevSeg.1 ≠ cur.1 ∧ nextSeg.1 ≠ cur.1 ∧
          minS ≤ prevSeg.2.length ∧ minS ≤ nextSeg.2.length
      then segs.set i (otherLabel cur.1, cur.2)
      else segs
  | _, _, _ => segs

/-- The flip loop `for i in range(1, len(segments) - 1)`
(src/process_file.py line 50), as a fuelled recursion: `fuel` many
iterations starting at loop index `i`. -/
def flipLoop (minS maxF : Nat) : Nat → Nat → List (Label × List Nat) →
    List (Label × List Nat)
  | 0, _, segs => segs
  | fuel + 1, i, segs => flipLoop minS maxF fuel (i + 1) (flipAt minS maxF segs i)

/-- Step 2 of `apply_forgiving_heuristic` (src/process_file.py lines
50-61): run the flip loop over the interior segment indices
`1 .. len - 2`. -/
def applyFlips (minS maxF : Nat) (segs : List (Label × List Nat)) :
    List (Label × List Nat) :=
  flipLoop minS maxF (segs.length - 2) 1 segs

/-- Step 3 of `apply_forgiving_heuristic` (src/process_file.py lines
62-66): expand each segment's label across its collected indices. -/
def expandSegments (segs : List (Label × List Nat)) : List Label :=
  (segs.map (fun s => s.2.map (fun _ => s.1))).flatten

/-- Embedding of `apply_forgiving_heuristic` (src/process_file.py lines
36-67).  The Python function indexes `predictions[0]` unconditionally,
so the empty input (an error precondition per the design) is modelled
as `none`. -/
def apply_forgiving_heuristic (predictions : List Label)
    (min_surround_chunks max_flip_length : Nat) : Option (List Label) :=
  match predictions with
  | [] => none
  | _ :: _ =>
      some (expandSegments
        (applyFlips min_surround_chunks max_flip_length (buildSegments predictions)))

/-- Modelled from the spec: one decision of the reference single pass
that "reads only the unmodified segment list" — identical to `flipAt`
except that the three segment reads go to the fixed original list
`orig` while the assignment still goes to the working list `segs`. -/
def refFlipAt (minS maxF : Nat) (orig segs : List (Label × List Nat)) (i : Nat) :
    List (Label × List Nat) :=
  match orig[i - 1]?, orig[i]?, orig[i + 1]? with
  | some prevSeg, some cur, some nextSeg =>
      if cur.2.length ≤ maxF ∧ prevSeg.1 ≠ cur.1 ∧ nextSeg.1 ≠ cur.1 ∧
          minS ≤ prevSeg.2.length ∧ minS ≤ nextSeg.2.length
      then segs.set i (otherLabel cur.1, cur.2)
      else segs
  | _, _, _ => segs

/-- Modelled from the spec: the loop of the reference single pass, with
all decisions taken against the fixed original list `orig`. -/
def refLoop (minS maxF : Nat) (orig : List (Label × List Nat)) :
    Nat → Nat → List (Label × List Nat) → List (Label × List Nat)
  | 0, _, segs => segs
  | fuel + 1, i, segs =>
      refLoop minS maxF orig fuel (i + 1) (refFlipAt minS maxF orig segs i)

/-- Modelled from the spec: reference single pass over the interior
segments, every decision computed against the original segmentation. -/
def referenceFlips (minS maxF : Nat) (segs : List (Label × List Nat)) :
    List (Label × List Nat) :=
  refLoop minS maxF segs (segs.length - 2) 1 segs

/-- Modelled from the spec: the Heuristic Corrector with flip decisions
computed against the original segmentation (spec section 4.4 step 3),
for comparison with `apply_forgiving_heuristic`. -/
def reference_heuristic (predictions : List Label)
    (min_surround_chunks max_flip_length : Nat) : Option (List Label) :=
  match predictions with
  | [] => none
  | _ :: _ =>
      some (expandSegments
        (referenceFlips min_surround_chunks max_flip_length (buildSegments predictions)))

/-- Body of the loop of `reconstruct_audio` (src/process_file.py lines
76-88): `i` is the enumeration index, the list pairs each corrected
label with its chunk payload, `acc` is `combined_audio` (`none` models
Python `None`).  Returns the final `combined_audio` together with the
list of per-chunk exports `(index, directory label)`; a chunk is
exported only when its label is a key of `type_dirs`, i.e. not
`unknown`. -/
def reconGo (desired : Label) : Nat → List (Label × List Nat) →
    Option (List Nat) → Option (List Nat) × List (Nat × Label)
  | _, [], acc => (acc, [])
  | i, (label, c) :: rest, acc =>
      let acc2 := if label = desired then some (acc.getD [] ++ c) else acc
      let r := reconGo desired (i + 1) rest acc2
      if label = Label.unknown then r else (r.1, (i, label) :: r.2)

/-- Embedding of `reconstruct_audio` (src/process_file.py lines 69-88).
Audio chunks are modelled as lists of samples; pydub `+` on audio is
list append.  The first component is the returned `combined_audio`,
the second the per-chunk audit exports in loop order. -/
def reconstruct_audio (corrected_predictions : List Label)
    (chunks : List (List Nat)) (desired_label : Label) :
    Option (List Nat) × List (Nat × Label) :=
  reconGo desired_label 0 (corrected_predictions.zip chunks) none

/-- Body of the loop of `reconstruct_audio` when the per-chunk
`chunk.export` call (src/process_file.py line 87) may raise: `fails i`
tells whether the export of chunk `i` raises.  An uncaught exception
aborts the loop (and, since no caller catches it, the whole run),
leaving only the exports `written` so far on disk; this is modelled by
`Except.error written`. -/
def reconFGo (desired : Label) (fails : Nat → Bool) : Nat →
    List (Label × List Nat) → Option (List Nat) → List (Nat × Label) →
    Except (List (Nat × Label)) (Option (List Nat) × List (Nat × Label))
  | _, [], acc, written => Except.ok (acc, written)
  | i, (label, c) :: rest, acc, written =>
      let acc2 := if label = desired then some (acc.getD [] ++ c) else acc
      if label = Label.unknown then reconFGo desired fails (i + 1) rest acc2 written
      else if fails i then Except.error written
      else reconFGo desired fails (i + 1) rest acc2 (written ++ [(i, label)])

/-- `reconstruct_audio` under a per-chunk export failure oracle: the
Python code has no try/except around `chunk.export`, so a failing
export propagates out of the loop. -/
def reconstruct_audio_f (corrected_predictions : List Label)
    (chunks : List (List Nat)) (desired_label : Label) (fails : Nat → Bool) :
    Except (List (Nat × Label)) (Option (List Nat) × List (Nat × Label)) :=
  reconFGo desired_label fails 0 (corrected_predictions.zip chunks) none []

/-- The per-chunk export files that end up on disk in either outcome of
`reconstruct_audio_f`. -/
def exportsOfResult :
    Except (List (Nat × Label)) (Option (List Nat) × List (Nat × Label)) →
    List (Nat × Label)
  | Except.error written => written
  | Except.ok r => r.2

/-- Embedding of the tail of `process_audio` (src/process_file.py lines
126-134): run `reconstruct_audio` with desired label `'B'`, then try to
save the combined track; a save failure is caught by the
`try`/`except` and only suppresses the combined file, never touching
the per-chunk exports.  Returns (exports on disk, persisted combined
track). -/
def process_audio_save (corrected : List Label) (chunks : List (List Nat))
    (saveFails : Bool) : List (Nat × Label) × Option (List Nat) :=
  let r := reconstruct_audio corrected chunks Label.B
  match r.1 with
  | some c => if saveFails then (r.2, none) else (r.2, some c)
  | none => (r.2, none)

/-- `chunk_length_ms = chunk_length_sec * 1000` (src/process_file.py
line 98). -/
def chunk_length_ms (chunk_length_sec : Nat) : Nat := chunk_length_sec * 1000

/-- `num_chunks = total_length_ms // chunk_length_ms`
(src/process_file.py line 99). -/
def num_chunks (total_length_ms chunk_ms : Nat) : Nat := total_length_ms / chunk_ms

/-- The chunking loop of `process_audio` (src/process_file.py lines
107-112): chunk `i` is the slice `[i * chunk_ms, i * chunk_ms + chunk_ms)`
of the audio, modelled by its start/end offsets in milliseconds. -/
def audio_chunks (total_length_ms chunk_ms : Nat) : List (Nat × Nat) :=
  (List.range (num_chunks total_length_ms chunk_ms)).map
    (fun i => (i * chunk_ms, i * chunk_ms + chunk_ms))

/-- Case analysis for `flipAt`: either it leaves the list unchanged, or
all three segment reads succeeded, the flip condition held, and the
result is the corresponding `List.set`. -/
theorem flipAt_cases (minS maxF : Nat) (segs : List (Label × List Nat)) (i : Nat) :
    flipAt minS maxF segs i = segs ∨
    ∃ ps c nx, segs[i - 1]? = some ps ∧ segs[i]? = some c ∧ segs[i + 1]? = some nx ∧
      (c.2.length ≤ maxF ∧ ps.1 ≠ c.1 ∧ nx.1 ≠ c.1 ∧
        minS ≤ ps.2.length ∧ minS ≤ nx.2.length) ∧
      flipAt minS maxF segs i = segs.set i (otherLabel c.1, c.2) := by
  unfold flipAt
  cases hp : segs[i - 1]? with
  | none => exact Or.inl rfl
  | some ps =>
      cases hc : segs[i]? with
      | none => exact Or.inl rfl
      | some c =>
          cases hn : segs[i + 1]? with
          | none => exact Or.inl rfl
          | some nx =>
              by_cases h : c.2.length ≤ maxF ∧ ps.1 ≠ c.1 ∧ nx.1 ≠ c.1 ∧
                  minS ≤ ps.2.length ∧ minS ≤ nx.2.length
              · exact Or.inr ⟨ps, c, nx, rfl, rfl, rfl, h, if_pos h⟩
              · exact Or.inl (if_neg h)

/-- Same case analysis for the reference step `refFlipAt`. -/
theorem refFlipAt_cases (minS maxF : Nat) (orig segs : List (Label × List Nat)) (i : Nat) :
    refFlipAt minS maxF orig segs i = segs ∨
    ∃ ps c nx, orig[i - 1]? = some ps ∧ orig[i]? = some c ∧ orig[i + 1]? = some nx ∧
      (c.2.length ≤ maxF ∧ ps.1 ≠ c.1 ∧ nx.1 ≠ c.1 ∧
        minS ≤ ps.2.length ∧ minS ≤ nx.2.length) ∧
      refFlipAt minS maxF orig segs i = segs.set i (otherLabel c.1, c.2) := by
  unfold refFlipAt
  cases hp : orig[i - 1]? with
  | none => exact Or.inl rfl
  | some ps =>
      cases hc : orig[i]? with
      | none => exact Or.inl rfl
      | some c =>
          cases hn : orig[i + 1]? with
          | none => exact Or.inl rfl
          | some nx =>
              by_cases h : c.2.length ≤ maxF ∧ ps.1 ≠ c.1 ∧ nx.1 ≠ c.1 ∧
                  minS ≤ ps.2.length ∧ minS ≤ nx.2.length
              · exact Or.inr ⟨ps, c, nx, rfl, rfl, rfl, h, if_pos h⟩
              · exact Or.inl (if_neg h)

theorem length_flipAt (minS maxF : Nat) (segs : List (Label × List Nat)) (i : Nat) :
    (flipAt minS maxF segs i).length = segs.length := by
  rcases flipAt_cases minS maxF segs i with h | ⟨_, _, _, _, _, _, _, h⟩
  · rw [h]
  · rw [h, List.length_set]

theorem length_refFlipAt (minS maxF : Nat) (orig segs : List (Label × List Nat)) (i : Nat) :
    (refFlipAt minS maxF orig segs i).length = segs.length := by
  rcases refFlipAt_cases minS maxF orig segs i with h | ⟨_, _, _, _, _, _, _, h⟩
  · rw [h]
  · rw [h, List.length_set]

theorem getElem?_flipAt_ne (minS maxF : Nat) (segs : List (Label × List Nat))
    (i j : Nat) (h : j ≠ i) : (flipAt minS maxF segs i)[j]? = segs[j]? := by
  rcases flipAt_cases minS maxF segs i with heq | ⟨_, _, _, _, _, _, _, heq⟩
  · rw [heq]
  · rw [heq]; exact List.getElem?_set_ne (Ne.symm h)

theorem getElem?_refFlipAt_ne (minS maxF : Nat) (orig segs : List (Label × List Nat))
    (i j : Nat) (h : j ≠ i) : (refFlipAt minS maxF orig segs i)[j]? = segs[j]? := by
  rcases refFlipAt_cases minS maxF orig segs i with heq | ⟨_, _, _, _, _, _, _, heq⟩
  · rw [heq]
  · rw [heq]; exact List.getElem?_set_ne (Ne.symm h)

/-- If the current segment is longer than `max_flip_length`, the flip
step does nothing, whatever the neighbours are. -/
theorem flipAt_long (minS maxF : Nat) (segs : List (Label × List Nat)) (i : Nat)
    (c : Label × List Nat) (hc : segs[i]? = some c) (hl : maxF < c.2.length) :
    flipAt minS maxF segs i = segs := by
  rcases flipAt_cases minS maxF segs i with heq | ⟨_, c', _, _, hc', _, hcond, _⟩
  · exact heq
  · rw [hc] at hc'
    cases hc'
    exact absurd hcond.1 (by omega)

theorem refFlipAt_long (minS maxF : Nat) (orig segs : List (Label × List Nat)) (i : Nat)
    (c : Label × List Nat) (hc : orig[i]? = some c) (hl : maxF < c.2.length) :
    refFlipAt minS maxF orig segs i = segs := by
  rcases refFlipAt_cases minS maxF orig segs i with heq | ⟨_, c', _, _, hc', _, hcond, _⟩
  · exact heq
  · rw [hc] at hc'
    cases hc'
    exact absurd hcond.1 (by omega)

/-- Loop positions outside the iteration range `[i, i + fuel)` are
never written by the flip loop. -/
theorem flipLoop_getElem?_out (minS maxF : Nat) :
    ∀ (fuel i : Nat) (segs : List (Label × List Nat)) (j : Nat),
      j < i ∨ i + fuel ≤ j →
      (flipLoop minS maxF fuel i segs)[j]? = segs[j]? := by
  intro fuel
  induction fuel with
  | zero => intro i segs j _; rfl
  | succ f ih =>
      intro i segs j h
      rw [flipLoop, ih (i + 1) _ j (by omega)]
      exact getElem?_flipAt_ne minS maxF segs i j (by omega)

theorem refLoop_getElem?_out (minS maxF : Nat) (orig : List (Label × List Nat)) :
    ∀ (fuel i : Nat) (segs : List (Label × List Nat)) (j : Nat),
      j < i ∨ i + fuel ≤ j →
      (refLoop minS maxF orig fuel i segs)[j]? = segs[j]? := by
  intro fuel
  induction fuel with
  | zero => intro i segs j _; rfl
  | succ f ih =>
      intro i segs j h
      rw [refLoop, ih (i + 1) _ j (by omega)]
      exact getElem?_refFlipAt_ne minS maxF orig segs i j (by omega)

theorem length_refLoop (minS maxF : Nat) (orig : List (Label × List Nat)) :
    ∀ (fuel i : Nat) (segs : List (Label × List Nat)),
      (refLoop minS maxF orig fuel i segs).length = segs.length := by
  intro fuel
  induction fuel with
  | zero => intro i segs; rfl
  | succ f ih =>
      intro i segs
      rw [refLoop, ih (i + 1), length_refFlipAt]

theorem length_flipLoop (minS maxF : Nat) :
    ∀ (fuel i : Nat) (segs : List (Label × List Nat)),
      (flipLoop minS maxF fuel i segs).length = segs.length := by
  intro fuel
  induction fuel with
  | zero => intro i segs; rfl
  | succ f ih =>
      intro i segs
      rw [flipLoop, ih (i + 1), length_flipAt]

/-- Key invariant: when `max_flip_length < min_surround_chunks`, the
in-place flip loop of the Python code computes exactly what the
reference loop (which reads only the original list `orig`) computes.
The hypotheses say that `segs` is the state of the in-place loop when
reaching index `i`: positions `≥ i` are still original, and if the
position `i - 1` was already rewritten then the original segment at
`i` was long enough to serve as a surround (length `≥ minS`), hence
too long to flip. -/
theorem flipLoop_eq_refLoop (minS maxF : Nat) (hms : maxF < minS)
    (orig : List (Label × List Nat)) :
    ∀ (fuel i : Nat) (segs : List (Label × List Nat)),
      segs.length = orig.length →
      (∀ j, i ≤ j → segs[j]? = orig[j]?) →
      (segs[i - 1]? ≠ orig[i - 1]? →
        ∃ c, orig[i]? = some c ∧ minS ≤ c.2.length) →
      flipLoop minS maxF fuel i segs = refLoop minS maxF orig fuel i segs := by
  intro fuel
  induction fuel with
  | zero => intro i segs _ _ _; rfl
  | succ f ih =>
      intro i segs hlen h1 h2
      have hi : segs[i]? = orig[i]? := h1 i (Nat.le_refl i)
      have hi1 : segs[i + 1]? = orig[i + 1]? := h1 (i + 1) (by omega)
      have hstep : flipAt minS maxF segs i = refFlipAt minS maxF orig segs i := by
        by_cases hp : segs[i - 1]? = orig[i - 1]?
        · unfold flipAt refFlipAt
          rw [hp, hi, hi1]
        · rcases h2 hp with ⟨c, hc, hcl⟩
          rw [flipAt_long minS maxF segs i c (hi.trans hc) (by omega),
              refFlipAt_long minS maxF orig segs i c hc (by omega)]
      rw [flipLoop, refLoop, hstep]
      apply ih (i + 1)
      · rw [length_refFlipAt, hlen]
      · intro j hj
        rw [getElem?_refFlipAt_ne minS maxF orig segs i j (by omega)]
        exact h1 j (by omega)
      · intro hne
        have hii : i + 1 - 1 = i := by omega
        rw [hii] at hne
        rcases refFlipAt_cases minS maxF orig segs i with heq | ⟨ps, c, nx, _, _, hn, hcond, _⟩
        · rw [heq, hi] at hne
          exact absurd rfl hne
        · exact ⟨nx, hn, hcond.2.2.2.2⟩
    
/-- `refFlipAt` when all three reads on the original list succeed. -/
theorem refFlipAt_some (minS maxF : Nat) (orig segs : List (Label × List Nat)) (i : Nat)
    (l pl nl : Label) (idxs pidx nidx : List Nat)
    (hp : orig[i - 1]? = some (pl, pidx)) (hc : orig[i]? = some (l, idxs))
    (hn : orig[i + 1]? = some (nl, nidx)) :
    refFlipAt minS maxF orig segs i =
      if idxs.length ≤ maxF ∧ pl ≠ l ∧ nl ≠ l ∧ minS ≤ pidx.length ∧ minS ≤ nidx.length
      then segs.set i (otherLabel l, idxs)
      else segs := by
  unfold refFlipAt
  rw [hp, hc, hn]

/-- Value of the reference loop at an interior position `i` of its
iteration range: position `i` is decided once, from the original list
only. -/
theorem refLoop_getElem?_in (minS maxF : Nat) (orig : List (Label × List Nat))
    (l pl nl : Label) (idxs pidx nidx : List Nat) :
    ∀ (fuel j : Nat) (segs : List (Label × List Nat)) (i : Nat),
      segs.length = orig.length →
      j ≤ i → i < j + fuel →
      orig[i]? = some (l, idxs) →
      orig[i - 1]? = some (pl, pidx) →
      orig[i + 1]? = some (nl, nidx) →
      (refLoop minS maxF orig fuel j segs)[i]? =
        if idxs.length ≤ maxF ∧ pl ≠ l ∧ nl ≠ l ∧ minS ≤ pidx.length ∧ minS ≤ nidx.length
        then some (otherLabel l, idxs)
        else segs[i]? := by
  intro fuel
  induction fuel with
  | zero => intro j segs i _ h1 h2 _ _ _; omega
  | succ f ih =>
      intro j segs i hlen hji hif hc hp hn
      by_cases hj : j = i
      · subst hj
        rw [refLoop,
          refLoop_getElem?_out minS maxF orig f (j + 1) _ j (Or.inl (by omega)),
          refFlipAt_some minS maxF orig segs j l pl nl idxs pidx nidx hp hc hn]
        have hlt : j < segs.length := by
          rw [List.getElem?_eq_some_iff] at hc
          rcases hc with ⟨h, _⟩
          omega
        by_cases hcond : idxs.length ≤ maxF ∧ pl ≠ l ∧ nl ≠ l ∧
            minS ≤ pidx.length ∧ minS ≤ nidx.length
        · rw [if_pos hcond, if_pos hcond]
          exact List.getElem?_set_self hlt
        · rw [if_neg hcond, if_neg hcond]
      · rw [refLoop,
          ih (j + 1) (refFlipAt minS maxF orig segs j) i
            (by rw [length_refFlipAt]; exact hlen) (by omega) (by omega) hc hp hn]
        by_cases hcond : idxs.length ≤ maxF ∧ pl ≠ l ∧ nl ≠ l ∧
            minS ≤ pidx.length ∧ minS ≤ nidx.length
        · rw [if_pos hcond, if_pos hcond]
        · rw [if_neg hcond, if_neg hcond]
          exact getElem?_refFlipAt_ne minS maxF orig segs j i (by omega)

/-- When `max_flip_length < min_surround_chunks`, the in-place flip
pass of the Python code equals the reference pass computed against the
original segmentation. -/
theorem applyFlips_eq_referenceFlips (minS maxF : Nat) (hms : maxF < minS)
    (segs : List (Label × List Nat)) :
    applyFlips minS maxF segs = referenceFlips minS maxF segs := by
  unfold applyFlips referenceFlips
  exact flipLoop_eq_refLoop minS maxF hms segs (segs.length - 2) 1 segs rfl
    (fun j _ => rfl) (fun h => absurd rfl h)

/-- Same equality lifted to the full corrector. -/
theorem heuristic_eq_reference (preds : List Label) (minS maxF : Nat)
    (hms : maxF < minS) :
    apply_forgiving_heuristic preds minS maxF = reference_heuristic preds minS maxF := by
  cases preds with
  | nil => rfl
  | cons p rest =>
      unfold apply_forgiving_heuristic reference_heuristic
      rw [applyFlips_eq_referenceFlips minS maxF hms]

/-- Characterization of the corrected label of an interior segment, for
`max_flip_length < min_surround_chunks`: it is flipped (to the "other"
label) exactly when the Python flip condition holds of the original
segmentation. -/
theorem applyFlips_getElem?_interior (minS maxF : Nat) (hms : maxF < minS)
    (segs : List (Label × List Nat)) (i : Nat) (hi : 1 ≤ i)
    (l pl nl : Label) (idxs pidx nidx : List Nat)
    (hc : segs[i]? = some (l, idxs))
    (hp : segs[i - 1]? = some (pl, pidx))
    (hn : segs[i + 1]? = some (nl, nidx)) :
    (applyFlips minS maxF segs)[i]? =
      some (if idxs.length ≤ maxF ∧ pl ≠ l ∧ nl ≠ l ∧
              minS ≤ pidx.length ∧ minS ≤ nidx.length
            then (otherLabel l, idxs) else (l, idxs)) := by
  rw [applyFlips_eq_referenceFlips minS maxF hms]
  have hlt : i + 1 < segs.length := by
    rw [List.getElem?_eq_some_iff] at hn
    rcases hn with ⟨h, _⟩
    omega
  unfold referenceFlips
  rw [refLoop_getElem?_in minS maxF segs l pl nl idxs pidx nidx
    (segs.length - 2) 1 segs i rfl hi (by omega) hc hp hn]
  by_cases hcond : idxs.length ≤ maxF ∧ pl ≠ l ∧ nl ≠ l ∧
      minS ≤ pidx.length ∧ minS ≤ nidx.length
  · rw [if_pos hcond, if_pos hcond]
  · rw [if_neg hcond, if_neg hcond, hc]

/-- The flip step never changes the indices component of any segment. -/
theorem map_snd_flipAt (minS maxF : Nat) (segs : List (Label × List Nat)) (i : Nat) :
    (flipAt minS maxF segs i).map Prod.snd = segs.map Prod.snd := by
  rcases flipAt_cases minS maxF segs i with heq | ⟨ps, c, nx, hp, hc, hn, hcond, heq⟩
  · rw [heq]
  · rw [heq, List.map_set]
    apply List.ext_getElem?
    intro j
    by_cases hj : j = i
    · subst hj
      have hlt : j < segs.length := by
        rw [List.getElem?_eq_some_iff] at hc
        rcases hc with ⟨h, _⟩
        exact h
      rw [List.getElem?_set_self (by simpa using hlt), List.getElem?_map, hc]
      rfl
    · rw [List.getElem?_set_ne (Ne.symm hj)]

theorem map_snd_flipLoop (minS maxF : Nat) :
    ∀ (fuel i : Nat) (segs : List (Label × List Nat)),
      (flipLoop minS maxF fuel i segs).map Prod.snd = segs.map Prod.snd := by
  intro fuel
  induction fuel with
  | zero => intro i segs; rfl
  | succ f ih =>
      intro i segs
      rw [flipLoop, ih (i + 1), map_snd_flipAt]

theorem map_snd_applyFlips (minS maxF : Nat) (segs : List (Label × List Nat)) :
    (applyFlips minS maxF segs).map Prod.snd = segs.map Prod.snd := by
  unfold applyFlips
  exact map_snd_flipLoop minS maxF (segs.length - 2) 1 segs

/-- Grouping invariant: if the indices already emitted together with
the current run make up `range i`, then after consuming `rest` the
emitted indices make up `range (i + rest.length)`. -/
theorem buildSegmentsGo_flatten :
    ∀ (rest : List Label) (cl : Label) (ci : List Nat) (i : Nat)
      (acc : List (Label × List Nat)),
      (acc.map Prod.snd).flatten ++ ci = List.range i →
      ((buildSegmentsGo rest cl ci i acc).map Prod.snd).flatten =
        List.range (i + rest.length) := by
  intro rest
  induction rest with
  | nil =>
      intro cl ci i acc h
      rw [buildSegmentsGo]
      simp only [List.map_append, List.flatten_append, List.map_cons, List.map_nil,
        List.flatten_cons, List.flatten_nil, List.append_nil, List.length_nil, Nat.add_zero]
      exact h
  | cons p rest ih =>
      intro cl ci i acc h
      rw [buildSegmentsGo]
      by_cases hp : p = cl
      · have hinv : (acc.map Prod.snd).flatten ++ (ci ++ [i]) = List.range (i + 1) := by
          rw [← List.append_assoc, h, List.range_succ]
        rw [if_pos hp, ih cl (ci ++ [i]) (i + 1) acc hinv]
        congr 1
        simp only [List.length_cons]
        omega
      · have hinv : (((acc ++ [(cl, ci)]).map Prod.snd).flatten) ++ [i] = List.range (i + 1) := by
          simp only [List.map_append, List.flatten_append, List.map_cons, List.map_nil,
            List.flatten_cons, List.flatten_nil, List.append_nil]
          rw [List.range_succ, ← h, List.append_assoc]
        rw [if_neg hp, ih p [i] (i + 1) (acc ++ [(cl, ci)]) hinv]
        congr 1
        simp only [List.length_cons]
        omega

/-- The segmentation of a non-empty prediction list partitions the
index range `0 .. N - 1` exactly, in order. -/
theorem buildSegments_flatten (p : Label) (rest : List Label) :
    ((buildSegments (p :: rest)).map Prod.snd).flatten =
      List.range (p :: rest).length := by
  unfold buildSegments
  rw [buildSegmentsGo_flatten rest p [0] 1 [] (by simp [List.range_succ])]
  congr 1
  simp only [List.length_cons]
  omega

/-- Expansion produces one label per collected index. -/
theorem length_expandSegments (segs : List (Label × List Nat)) :
    (expandSegments segs).length = ((segs.map Prod.snd).flatten).length := by
  induction segs with
  | nil => rfl
  | cons s rest ih =>
      unfold expandSegments at ih ⊢
      simp only [List.map_cons, List.flatten_cons, List.length_append, List.length_map]
      omega

/-- The combined-track accumulator of the reconstruction loop ignores
the export branch. -/
theorem reconGo_cons_fst (desired : Label) (i : Nat) (l : Label) (c : List Nat)
    (rest : List (Label × List Nat)) (acc : Option (List Nat)) :
    (reconGo desired i ((l, c) :: rest) acc).1 =
      (reconGo desired (i + 1) rest
        (if l = desired then some (acc.getD [] ++ c) else acc)).1 := by
  simp only [reconGo]
  split
  · rfl
  · rfl

/-- Closed form of the combined track built by the reconstruction
loop: the concatenation, in list order, of the payloads whose label
equals the desired one, appended to the accumulator. -/
theorem reconGo_fst (desired : Label) :
    ∀ (rest : List (Label × List Nat)) (i : Nat) (acc : Option (List Nat)),
      (reconGo desired i rest acc).1 =
        if rest.filter (fun p => decide (p.1 = desired)) = [] then acc
        else some (acc.getD [] ++
          ((rest.filter (fun p => decide (p.1 = desired))).map Prod.snd).flatten) := by
  intro rest
  induction rest with
  | nil => intro i acc; simp [reconGo]
  | cons pc rest ih =>
      intro i acc
      obtain ⟨l, c⟩ := pc
      rw [reconGo_cons_fst, ih (i + 1)]
      by_cases hd : l = desired
      · have hf : ((l, c) :: rest).filter (fun p => decide (p.1 = desired)) =
            (l, c) :: rest.filter (fun p => decide (p.1 = desired)) := by
          simp [List.filter_cons, hd]
        rw [hf, if_pos hd]
        by_cases he : rest.filter (fun p => decide (p.1 = desired)) = []
        · rw [if_pos he, he]
          simp
        · rw [if_neg he, if_neg (by simp : ((l, c) ::
            rest.filter (fun p => decide (p.1 = desired))) ≠ [])]
          simp [List.append_assoc]
      · have hf : ((l, c) :: rest).filter (fun p => decide (p.1 = desired)) =
            rest.filter (fun p => decide (p.1 = desired)) := by
          simp [List.filter_cons, hd]
        rw [hf, if_neg hd]

/-- Closed form of the export list built by the reconstruction loop:
the enumerated labels, keeping exactly those that are a concrete
category. -/
theorem reconGo_snd (desired : Label) :
    ∀ (rest : List (Label × List Nat)) (i : Nat) (acc : Option (List Nat)),
      (reconGo desired i rest acc).2 =
        (rest.enumFrom i).filterMap
          (fun q => if q.2.1 = Label.unknown then none else some (q.1, q.2.1)) := by
  intro rest
  induction rest with
  | nil => intro i acc; rfl
  | cons pc rest ih =>
      intro i acc
      obtain ⟨l, c⟩ := pc
      simp only [reconGo, List.enumFrom_cons]
      by_cases hu : l = Label.unknown
      · rw [if_pos hu, List.filterMap_cons_none (by simp [hu])]
        exact ih (i + 1) _
      · rw [if_neg hu]
        simp [List.filterMap_cons, hu, ih (i + 1)]

/-- Translation between the enumerated zip used by the loop and the
enumerated label list, for equal lengths. -/
theorem enumFrom_zip_filterMap :
    ∀ (a : List Label) (b : List (List Nat)) (i : Nat), a.length = b.length →
      ((a.zip b).enumFrom i).filterMap
          (fun q => if q.2.1 = Label.unknown then none else some (q.1, q.2.1)) =
        (a.enumFrom i).filterMap
          (fun q => if q.2 = Label.unknown then none else some q) := by
  intro a
  induction a with
  | nil => intro b i h; simp
  | cons x a ih =>
      intro b i h
      cases b with
      | nil => simp at h
      | cons y b =>
          simp only [List.zip_cons_cons, List.enumFrom_cons]
          by_cases hu : x = Label.unknown
          · rw [List.filterMap_cons_none (by simp [hu]),
              List.filterMap_cons_none (by simp [hu])]
            exact ih b (i + 1) (by simpa using h)
          · have h3 : a.length = b.length := by simpa using h
            simp [List.filterMap_cons, hu, ih b (i + 1) h3]

/-- When no export fails, the failure-aware reconstruction loop agrees
with the plain one and accumulates the same exports. -/
theorem reconFGo_ok_of_no_failure (desired : Label) (fails : Nat → Bool)
    (hf : ∀ i, fails i = false) :
    ∀ (rest : List (Label × List Nat)) (i : Nat) (acc : Option (List Nat))
      (written : List (Nat × Label)),
      reconFGo desired fails i rest acc written =
        Except.ok ((reconGo desired i rest acc).1,
          written ++ (reconGo desired i rest acc).2) := by
  intro rest
  induction rest with
  | nil => intro i acc written; simp [reconFGo, reconGo]
  | cons pc rest ih =>
      intro i acc written
      obtain ⟨l, c⟩ := pc
      simp only [reconFGo, reconGo]
      by_cases hu : l = Label.unknown
      · rw [if_pos hu, if_pos hu, ih (i + 1)]
      · rw [if_neg hu, if_neg hu, if_neg (by simp [hf i]), ih (i + 1)]
        simp [List.append_assoc]

/-- If the failure-aware reconstruction loop aborts with the files
`w` on disk, then some chunk `k` in range had a failing export and
nothing at position `k` or later was exported. -/
theorem reconFGo_error (desired : Label) (fails : Nat → Bool) (w : List (Nat × Label)) :
    ∀ (rest : List (Label × List Nat)) (i : Nat) (acc : Option (List Nat))
      (written : List (Nat × Label)),
      (∀ p, p ∈ written → p.1 < i) →
      reconFGo desired fails i rest acc written = Except.error w →
      ∃ k, i ≤ k ∧ k < i + rest.length ∧ fails k = true ∧ ∀ p, p ∈ w → p.1 < k := by
  intro rest
  induction rest with
  | nil =>
      intro i acc written hw h
      exact absurd h (by simp [reconFGo])
  | cons pc rest ih =>
      intro i acc written hw h
      obtain ⟨l, c⟩ := pc
      simp only [reconFGo] at h
      by_cases hu : l = Label.unknown
      · rw [if_pos hu] at h
        rcases ih (i + 1) _ written (fun p hp => by have := hw p hp; omega) h with
          ⟨k, hk1, hk2, hk3, hk4⟩
        refine ⟨k, by omega, ?_, hk3, hk4⟩
        simp only [List.length_cons]
        omega
      · rw [if_neg hu] at h
        by_cases hfi : fails i = true
        · rw [if_pos hfi] at h
          have hww : written = w := by
            simpa using h
          refine ⟨i, Nat.le_refl i, ?_, hfi, fun p hp => hw p (hww ▸ hp)⟩
          simp only [List.length_cons]
          omega
        · rw [if_neg hfi] at h
          have hw2 : ∀ p, p ∈ written ++ [(i, l)] → p.1 < i + 1 := by
            intro p hp
            rcases List.mem_append.mp hp with hp | hp
            · have := hw p hp
              omega
            · have : p = (i, l) := by simpa using hp
              rw [this]
              omega
          rcases ih (i + 1) _ (written ++ [(i, l)]) hw2 h with ⟨k, hk1, hk2, hk3, hk4⟩
          refine ⟨k, by omega, ?_, hk3, hk4⟩
          simp only [List.length_cons]
          omega

/-- The corrector never changes the number of predictions. -/
theorem apply_forgiving_heuristic_length (preds : List Label) (minS maxF : Nat)
    (corrected : List Label)
    (h : apply_forgiving_heuristic preds minS maxF = some corrected) :
    corrected.length = preds.length := by
  cases preds with
  | nil => exact absurd h (by simp [apply_forgiving_heuristic])
  | cons p rest =>
      simp only [apply_forgiving_heuristic, Option.some.injEq] at h
      rw [← h, length_expandSegments, map_snd_applyFlips, buildSegments_flatten,
        List.length_range]

/-- Each entry of the dispatcher's prediction sequence is exactly the
inference result of that chunk's own oracle call. -/
theorem dispatchPredictions_getElem? (n : Nat) (oracle : Nat → OracleResult)
    (j : Nat) (hj : j < n) :
    (dispatchPredictions n oracle)[j]? = some (run_inference (oracle j)) := by
  unfold dispatchPredictions
  rw [List.getElem?_map, List.getElem?_range hj]
  rfl

/-- Replacing `unknown` labels by `A` does not change the combined
track selected for desired label `B`: `unknown` already behaves as a
non-matching label. -/
theorem reconGo_fst_map_unknown :
    ∀ (a : List Label) (b : List (List Nat)) (i : Nat) (acc : Option (List Nat)),
      (reconGo Label.B i
        ((a.map (fun l => if l = Label.unknown then Label.A else l)).zip b) acc).1 =
        (reconGo Label.B i (a.zip b) acc).1 := by
  intro a
  induction a with
  | nil => intro b i acc; rfl
  | cons x a ih =>
      intro b i acc
      cases b with
      | nil => rfl
      | cons y b =>
          simp only [List.map_cons, List.zip_cons_cons]
          rw [reconGo_cons_fst, reconGo_cons_fst]
          cases x with
          | A => exact ih b (i + 1) _
          | B => exact ih b (i + 1) _
          | unknown => exact ih b (i + 1) _

/-- C1 counterexample: the iff-characterization against the original
segmentation does not hold for every configuration.  With
`min_surround_chunks = 1` and `max_flip_length = 1` on
`[A,A,A,B,A,B,B,B]`, interior segment 2 is `(A, [4])` and every
condition of the claim holds of the original segmentation (length
`1 ≤ 1`, both original neighbours labelled `B ≠ A`, neighbour lengths
`1 ≥ 1` and `3 ≥ 1`), yet the code does not replace its label: the
in-place flip of segment 1 (`B → A`) at the previous iteration makes
`prev_label == label` when segment 2 is examined. -/
theorem claim_C1_counterexample :
    ((buildSegments
        [Label.A, Label.A, Label.A, Label.B, Label.A, Label.B, Label.B, Label.B])[2]? =
      some (Label.A, [4])) ∧
    ((buildSegments
        [Label.A, Label.A, Label.A, Label.B, Label.A, Label.B, Label.B, Label.B])[1]? =
      some (Label.B, [3])) ∧
    ((buildSegments
        [Label.A, Label.A, Label.A, Label.B, Label.A, Label.B, Label.B, Label.B])[3]? =
      some (Label.B, [5, 6, 7])) ∧
    (([4] : List Nat).length ≤ 1 ∧ Label.B ≠ Label.A ∧ Label.B ≠ Label.A ∧
      1 ≤ ([3] : List Nat).length ∧ 1 ≤ ([5, 6, 7] : List Nat).length) ∧
    (applyFlips 1 1 (buildSegments
        [Label.A, Label.A, Label.A, Label.B, Label.A, Label.B, Label.B, Label.B]))[2]? =
      some (Label.A, [4]) := by
  decide

/-- C1 (amended): for every interior segment of the maximal-run
segmentation carrying a binary label, under any configuration with
`max_flip_length < min_surround_chunks` (which includes the defaults
3 and 2 — for configurations with `min_surround_chunks ≤
max_flip_length` an earlier in-place flip can block a later one, so
the characterization fails there), the Heuristic Corrector replaces
the segment's label with the opposite binary category (`otherLabel`)
if and only if the segment's length is at most `max_flip_length`,
both neighbouring segments' labels differ from it, and both
neighbours are at least `min_surround_chunks` long; and the spec's
example `[B,B,B,A,B,B,B,B] → [B,B,B,B,B,B,B,B]` holds. -/
theorem claim_C1_interior_flip_characterization
    (preds : List Label) (minS maxF i : Nat)
    (l pl nl : Label) (idxs pidx nidx : List Nat)
    (hms : maxF < minS) (hi : 1 ≤ i)
    (hc : (buildSegments preds)[i]? = some (l, idxs))
    (hp : (buildSegments preds)[i - 1]? = some (pl, pidx))
    (hn : (buildSegments preds)[i + 1]? = some (nl, nidx))
    (hl : l ≠ Label.unknown) :
    (applyFlips minS maxF (buildSegments preds))[i]? =
      some (if idxs.length ≤ maxF ∧ pl ≠ l ∧ nl ≠ l ∧
              minS ≤ pidx.length ∧ minS ≤ nidx.length
            then (otherLabel l, idxs) else (l, idxs)) ∧
    ((l = Label.A ∧ otherLabel l = Label.B) ∨ (l = Label.B ∧ otherLabel l = Label.A)) ∧
    apply_forgiving_heuristic
        [Label.B, Label.B, Label.B, Label.A, Label.B, Label.B, Label.B, Label.B] 3 2 =
      some [Label.B, Label.B, Label.B, Label.B, Label.B, Label.B, Label.B, Label.B] := by
  refine ⟨applyFlips_getElem?_interior minS maxF hms (buildSegments preds) i hi
    l pl nl idxs pidx nidx hc hp hn, ?_, by decide⟩
  cases l with
  | A => exact Or.inl ⟨rfl, rfl⟩
  | B => exact Or.inr ⟨rfl, rfl⟩
  | unknown => exact absurd rfl hl

theorem claim_C1_interior_flip_characterization_witness :
    ((applyFlips 3 2 (buildSegments
        [Label.B, Label.B, Label.B, Label.A, Label.B, Label.B, Label.B, Label.B]))[1]? =
      some (if ([3] : List Nat).length ≤ 2 ∧ Label.B ≠ Label.A ∧ Label.B ≠ Label.A ∧
              3 ≤ ([0, 1, 2] : List Nat).length ∧ 3 ≤ ([4, 5, 6, 7] : List Nat).length
            then (otherLabel Label.A, ([3] : List Nat))
            else (Label.A, ([3] : List Nat)))) ∧
    ((Label.A = Label.A ∧ otherLabel Label.A = Label.B) ∨
      (Label.A = Label.B ∧ otherLabel Label.A = Label.A)) ∧
    apply_forgiving_heuristic
        [Label.B, Label.B, Label.B, Label.A, Label.B, Label.B, Label.B, Label.B] 3 2 =
      some [Label.B, Label.B, Label.B, Label.B, Label.B, Label.B, Label.B, Label.B] :=
  claim_C1_interior_flip_characterization
    [Label.B, Label.B, Label.B, Label.A, Label.B, Label.B, Label.B, Label.B]
    3 2 1 Label.A Label.B Label.B [3] [0, 1, 2] [4, 5, 6, 7]
    (by decide) (by decide) (by decide) (by decide) (by decide) (by decide)

/-- C2 counterexample: with `min_surround_chunks = 1` and
`max_flip_length = 1` on input `[A,A,A,B,A,B,B,B]`, the code's
in-place pass gives `[A,A,A,A,A,B,B,B]` (the flip of the `B` run makes
the following `A` run's previous neighbour equal-labelled, blocking
its flip) while the reference pass reading only the unmodified segment
list gives `[A,A,A,A,B,B,B,B]` — so the flip decisions are not
computed against the original segmentation for every configuration. -/
theorem claim_C2_counterexample :
    apply_forgiving_heuristic
        [Label.A, Label.A, Label.A, Label.B, Label.A, Label.B, Label.B, Label.B] 1 1 ≠
      reference_heuristic
        [Label.A, Label.A, Label.A, Label.B, Label.A, Label.B, Label.B, Label.B] 1 1 := by
  decide

/-- C2 (amended): the flip decisions read the segment list as already
updated by earlier flips of the same pass; whenever
`max_flip_length < min_surround_chunks` (in particular at the defaults
3 and 2) no flip can influence a later decision, so the corrector's
result equals the reference single pass that reads only the unmodified
segment list.  Flips are never re-propagated into a second pass. -/
theorem claim_C2_single_pass_against_original (preds : List Label)
    (minS maxF : Nat) (hms : maxF < minS) :
    apply_forgiving_heuristic preds minS maxF = reference_heuristic preds minS maxF :=
  heuristic_eq_reference preds minS maxF hms

theorem claim_C2_single_pass_against_original_witness :
    apply_forgiving_heuristic [Label.B, Label.A, Label.B] 3 2 =
      reference_heuristic [Label.B, Label.A, Label.B] 3 2 :=
  claim_C2_single_pass_against_original [Label.B, Label.A, Label.B] 3 2 (by decide)

/-- C3: the code evaluating the claim's failing input.  An interior
segment whose label is `unknown` (Python `None`, a classification
failure) satisfies the flip condition between two long `B` runs, and
`new_label = 'B' if label == 'A' else 'A'` reclassifies it to the
concrete category `A` — contradicting the claim (and spec sections 3
and 9, which require Unknown chunks to be ineligible for flipping). -/
theorem claim_C3_unknown_segment_is_flipped :
    apply_forgiving_heuristic
        [Label.B, Label.B, Label.B, Label.unknown, Label.B, Label.B, Label.B] 3 2 =
      some [Label.B, Label.B, Label.B, Label.A, Label.B, Label.B, Label.B] := by
  decide

/-- C4 counterexample: a chunk whose corrected label is `unknown` is
not exported at all — `reconstruct_audio` only exports labels that are
keys of `type_dirs` (`'A'`/`'B'`), so with one chunk labelled
`unknown` the export list is empty, refuting "every chunk is exported
exactly once ... including chunks whose corrected label is Unknown". -/
theorem claim_C4_counterexample :
    (reconstruct_audio [Label.unknown] [[7]] Label.B).2 = [] := by
  decide

/-- C4 (amended): every chunk whose corrected (post-heuristic) label
is a concrete category is exported exactly once, to the per-category
directory chosen by that corrected label (never the raw label); chunks
whose corrected label is `unknown` are not exported.  The export list
is exactly the enumeration of the corrected labels with the `unknown`
entries dropped. -/
theorem claim_C4_exports_follow_corrected_labels (preds : List Label)
    (chunks : List (List Nat)) (corrected : List Label) (desired : Label)
    (hlen : preds.length = chunks.length)
    (hcor : apply_forgiving_heuristic preds 3 2 = some corrected) :
    (reconstruct_audio corrected chunks desired).2 =
      corrected.enum.filterMap
        (fun q => if q.2 = Label.unknown then none else some q) := by
  have hcl : corrected.length = chunks.length := by
    rw [apply_forgiving_heuristic_length preds 3 2 corrected hcor, hlen]
  unfold reconstruct_audio
  rw [reconGo_snd, enumFrom_zip_filterMap corrected chunks 0 hcl]
  rfl

theorem claim_C4_exports_follow_corrected_labels_witness :
    (reconstruct_audio [Label.B, Label.unknown, Label.A] [[1], [2], [3]] Label.B).2 =
      ([Label.B, Label.unknown, Label.A] : List Label).enum.filterMap
        (fun q => if q.2 = Label.unknown then none else some q) :=
  claim_C4_exports_follow_corrected_labels
    [Label.B, Label.unknown, Label.A] [[1], [2], [3]]
    [Label.B, Label.unknown, Label.A] Label.B (by decide) (by decide)

/-- C5: a failed oracle call (`CalledProcessError`) and an output with
no recognizable category token both yield `(index, unknown)`; each
entry of the dispatched prediction sequence depends only on its own
chunk's oracle outcome (so one chunk's failure cannot change another
chunk's label or processing); and `unknown` behaves as a non-matching
label for the desired category in reconstruction (replacing `unknown`
by the non-desired concrete category leaves the combined track
unchanged). -/
theorem claim_C5_classification_failure_isolated
    (out : List Char) (oracle : Nat → OracleResult) (n j : Nat)
    (corrected : List Label) (chunks : List (List Nat))
    (hA : ¬ 'A' ∈ out) (hB : ¬ 'B' ∈ out) (hj : j < n) :
    process_chunk j OracleResult.err = (j, Label.unknown) ∧
    process_chunk j (OracleResult.ok out) = (j, Label.unknown) ∧
    (dispatchPredictions n oracle)[j]? = some (run_inference (oracle j)) ∧
    (reconstruct_audio
        (corrected.map (fun l => if l = Label.unknown then Label.A else l))
        chunks Label.B).1 =
      (reconstruct_audio corrected chunks Label.B).1 := by
  refine ⟨rfl, ?_, dispatchPredictions_getElem? n oracle j hj, ?_⟩
  · simp only [process_chunk, run_inference]
    rw [if_neg hA, if_neg hB]
  · unfold reconstruct_audio
    exact reconGo_fst_map_unknown corrected chunks 0 none

theorem claim_C5_classification_failure_isolated_witness :
    process_chunk 0 OracleResult.err = (0, Label.unknown) ∧
    process_chunk 0 (OracleResult.ok ['C']) = (0, Label.unknown) ∧
    (dispatchPredictions 1 (fun _ => OracleResult.err))[0]? =
      some (run_inference ((fun _ => OracleResult.err) 0)) ∧
    (reconstruct_audio
        (([Label.unknown] : List Label).map
          (fun l => if l = Label.unknown then Label.A else l))
        [[5]] Label.B).1 =
      (reconstruct_audio [Label.unknown] [[5]] Label.B).1 :=
  claim_C5_classification_failure_isolated ['C'] (fun _ => OracleResult.err) 1 0
    [Label.unknown] [[5]] (by decide) (by decide) (by decide)

/-- C6: for a positive chunk duration, the Chunker produces exactly
`floor(T / d)` chunks; chunk `i` is exactly the interval
`[i * d, i * d + d)` (so the chunks are contiguous, non-overlapping,
and cover `[0, floor(T / d) * d)` in order); every chunk has duration
exactly `d` and ends within the timeline, and the trailing remainder
shorter than `d` is never materialized as a chunk. -/
theorem claim_C6_chunker (T s : Nat) (h : 0 < s) :
    (audio_chunks T (chunk_length_ms s)).length = T / chunk_length_ms s ∧
    (∀ i, i < T / chunk_length_ms s →
      (audio_chunks T (chunk_length_ms s))[i]? =
        some (i * chunk_length_ms s, i * chunk_length_ms s + chunk_length_ms s)) ∧
    (∀ c, c ∈ audio_chunks T (chunk_length_ms s) →
      c.2 - c.1 = chunk_length_ms s ∧ c.2 ≤ T) := by
  refine ⟨?_, ?_, ?_⟩
  · unfold audio_chunks num_chunks
    rw [List.length_map, List.length_range]
  · intro i hi
    unfold audio_chunks num_chunks
    rw [List.getElem?_map, List.getElem?_range hi]
    rfl
  · intro c hc
    unfold audio_chunks num_chunks at hc
    rw [List.mem_map] at hc
    rcases hc with ⟨i, hi, hci⟩
    rw [List.mem_range] at hi
    rw [← hci]
    have h1 : i + 1 ≤ T / chunk_length_ms s := hi
    have h2 : (i + 1) * chunk_length_ms s ≤ (T / chunk_length_ms s) * chunk_length_ms s :=
      Nat.mul_le_mul_right _ h1
    have h3 : (T / chunk_length_ms s) * chunk_length_ms s ≤ T := Nat.div_mul_le_self T _
    have h4 : i * chunk_length_ms s + chunk_length_ms s = (i + 1) * chunk_length_ms s := by
      ring
    constructor
    · omega
    · omega

theorem claim_C6_chunker_witness :
    ((audio_chunks 25000 (chunk_length_ms 10)).length = 25000 / chunk_length_ms 10) ∧
    (∀ i, i < 25000 / chunk_length_ms 10 →
      (audio_chunks 25000 (chunk_length_ms 10))[i]? =
        some (i * chunk_length_ms 10, i * chunk_length_ms 10 + chunk_length_ms 10)) ∧
    (∀ c, c ∈ audio_chunks 25000 (chunk_length_ms 10) →
      c.2 - c.1 = chunk_length_ms 10 ∧ c.2 ≤ 25000) :=
  claim_C6_chunker 25000 10 (by decide)

/-- C7: the combined track is exactly the concatenation, in ascending
index order, of the chunks whose corrected label equals the desired
category (`none`, the explicit empty-result indicator, when no chunk
matches), and its duration is the sum of those chunks' durations. -/
theorem claim_C7_combined_track (corrected : List Label) (chunks : List (List Nat))
    (desired : Label) (hlen : corrected.length = chunks.length) :
    (reconstruct_audio corrected chunks desired).1 =
      (if (corrected.zip chunks).filter (fun p => decide (p.1 = desired)) = []
       then none
       else some ((((corrected.zip chunks).filter
          (fun p => decide (p.1 = desired))).map Prod.snd).flatten)) ∧
    (((reconstruct_audio corrected chunks desired).1).getD []).length =
      ((((corrected.zip chunks).filter
          (fun p => decide (p.1 = desired))).map Prod.snd).map List.length).sum := by
  have hmain := reconGo_fst desired (corrected.zip chunks) 0 none
  constructor
  · unfold reconstruct_audio
    rw [hmain]
    by_cases he : (corrected.zip chunks).filter (fun p => decide (p.1 = desired)) = []
    · rw [if_pos he, if_pos he]
    · rw [if_neg he, if_neg he, Option.getD_none, List.nil_append]
  · unfold reconstruct_audio
    rw [hmain]
    by_cases he : (corrected.zip chunks).filter (fun p => decide (p.1 = desired)) = []
    · rw [if_pos he, he]
      simp
    · rw [if_neg he]
      simp [List.length_flatten]

theorem claim_C7_combined_track_witness :
    ((reconstruct_audio [Label.B, Label.A, Label.B] [[1, 2], [3], [4]] Label.B).1 =
      (if (([Label.B, Label.A, Label.B] : List Label).zip
            ([[1, 2], [3], [4]] : List (List Nat))).filter
          (fun p => decide (p.1 = Label.B)) = []
       then none
       else some ((((([Label.B, Label.A, Label.B] : List Label).zip
            ([[1, 2], [3], [4]] : List (List Nat))).filter
          (fun p => decide (p.1 = Label.B))).map Prod.snd).flatten))) ∧
    (((reconstruct_audio [Label.B, Label.A, Label.B] [[1, 2], [3], [4]] Label.B).1).getD
        []).length =
      ((((([Label.B, Label.A, Label.B] : List Label).zip
            ([[1, 2], [3], [4]] : List (List Nat))).filter
          (fun p => decide (p.1 = Label.B))).map Prod.snd).map List.length).sum :=
  claim_C7_combined_track [Label.B, Label.A, Label.B] [[1, 2], [3], [4]] Label.B
    (by decide)

/-- C8 counterexample: when only chunk 0's export fails, chunk 1 is
never exported — the uncaught exception aborts the loop, refuting
"does not abort the processing ... of the remaining chunks". -/
theorem claim_C8_counterexample :
    (1, Label.B) ∉ exportsOfResult
      (reconstruct_audio_f [Label.B, Label.B] [[1], [2]] Label.B (fun i => i == 0)) := by
  decide

/-- C8 (amended): `reconstruct_audio` has no exception handling around
per-chunk exports, so a failure while exporting an individual chunk
aborts the whole reconstruction: the run errors out after some failing
exportable chunk `k` and only chunks before `k` were exported.  When
no export fails the failure-aware loop agrees with the plain one.  A
failure to persist the final combined track, in contrast, is caught by
`process_audio` and leaves the per-chunk exports unchanged. -/
theorem claim_C8_export_failure_aborts (corrected : List Label)
    (chunks : List (List Nat)) (desired : Label) (fails : Nat → Bool)
    (saveFails : Bool) (hlen : corrected.length = chunks.length) :
    ((∀ i, fails i = false) →
      reconstruct_audio_f corrected chunks desired fails =
        Except.ok (reconstruct_audio corrected chunks desired)) ∧
    (∀ w, reconstruct_audio_f corrected chunks desired fails = Except.error w →
      ∃ k, k < corrected.length ∧ fails k = true ∧ ∀ p, p ∈ w → p.1 < k) ∧
    (process_audio_save corrected chunks saveFails).1 =
      (reconstruct_audio corrected chunks Label.B).2 := by
  refine ⟨?_, ?_, ?_⟩
  · intro hf
    unfold reconstruct_audio_f reconstruct_audio
    rw [reconFGo_ok_of_no_failure desired fails hf, List.nil_append]
  · intro w hw
    unfold reconstruct_audio_f at hw
    rcases reconFGo_error desired fails w (corrected.zip chunks) 0 none []
        (by simp) hw with ⟨k, _, hk2, hk3, hk4⟩
    refine ⟨k, ?_, hk3, hk4⟩
    rw [List.length_zip] at hk2
    omega
  · simp only [process_audio_save]
    cases hr : (reconstruct_audio corrected chunks Label.B).1 with
    | none => rfl
    | some c =>
        cases saveFails with
        | true => rfl
        | false => rfl

theorem claim_C8_export_failure_aborts_witness :
    ((∀ i, (fun _ : Nat => false) i = false) →
      reconstruct_audio_f [Label.B] [[1]] Label.B (fun _ : Nat => false) =
        Except.ok (reconstruct_audio [Label.B] [[1]] Label.B)) ∧
    (∀ w, reconstruct_audio_f [Label.B] [[1]] Label.B (fun _ : Nat => false) =
        Except.error w →
      ∃ k, k < ([Label.B] : List Label).length ∧ (fun _ : Nat => false) k = true ∧
        ∀ p, p ∈ w → p.1 < k) ∧
    (process_audio_save [Label.B] [[1]] true).1 =
      (reconstruct_audio [Label.B] [[1]] Label.B).2 :=
  claim_C8_export_failure_aborts [Label.B] [[1]] Label.B (fun _ : Nat => false) true
    (by decide)

/-- C9: the first and the last segment of the maximal-run segmentation
keep their label (and indices) under the Heuristic Corrector for every
configuration, and e.g. on `[A,B,B,B]` the short leading `A` is not
flipped, the output equalling the input. -/
theorem claim_C9_first_last_never_flipped (preds : List Label) (minS maxF : Nat) :
    (applyFlips minS maxF (buildSegments preds))[0]? = (buildSegments preds)[0]? ∧
    (applyFlips minS maxF (buildSegments preds))[(buildSegments preds).length - 1]? =
      (buildSegments preds)[(buildSegments preds).length - 1]? ∧
    apply_forgiving_heuristic [Label.A, Label.B, Label.B, Label.B] 3 2 =
      some [Label.A, Label.B, Label.B, Label.B] := by
  refine ⟨?_, ?_, by decide⟩
  · unfold applyFlips
    exact flipLoop_getElem?_out minS maxF _ 1 _ 0 (Or.inl (by omega))
  · unfold applyFlips
    by_cases hlen : (buildSegments preds).length ≤ 1
    · have h0 : (buildSegments preds).length - 2 = 0 := by omega
      rw [h0]
      rfl
    · exact flipLoop_getElem?_out minS maxF _ 1 _ _ (Or.inr (by omega))

/-- C10: for every non-empty prediction sequence, the maximal-run
segmentation partitions the indices `0 .. N - 1` exactly once each and
in order (the concatenation of the segments' index lists is literally
`range N`), and the corrected sequence returned by the Heuristic
Corrector has exactly the input's length, for every configuration. -/
theorem claim_C10_partition_and_length (preds : List Label) (minS maxF : Nat)
    (h : preds ≠ []) :
    ((buildSegments preds).map Prod.snd).flatten = List.range preds.length ∧
    ∃ corrected, apply_forgiving_heuristic preds minS maxF = some corrected ∧
      corrected.length = preds.length := by
  cases preds with
  | nil => exact absurd rfl h
  | cons p rest =>
      refine ⟨buildSegments_flatten p rest,
        expandSegments (applyFlips minS maxF (buildSegments (p :: rest))), rfl, ?_⟩
      exact apply_forgiving_heuristic_length (p :: rest) minS maxF _ rfl

theorem claim_C10_partition_and_length_witness :
    (((buildSegments [Label.A, Label.B, Label.B]).map Prod.snd).flatten =
      List.range ([Label.A, Label.B, Label.B] : List Label).length) ∧
    ∃ corrected, apply_forgiving_heuristic [Label.A, Label.B, Label.B] 3 2 =
        some corrected ∧
      corrected.length = ([Label.A, Label.B, Label.B] : List Label).length :=
  claim_C10_partition_and_length [Label.A, Label.B, Label.B] 3 2 (by decide)

end AdDetect

